import Mathlib

/-!
Shallow embedding of the roster state engine of `src/main.rs` (a terminal
tool that keeps a student registry, generates a participation-weighted call
order, filters it by a fuzzy query, and records answer outcomes).

Modelling conventions:

* `usize` values are `Nat`.  Overflow only matters in one place, the
  subtraction `max - min` in `randomize` (main.rs line 348), which is executed
  even for the empty registry (where `max = 0`, `min = usize::MAX`); there we
  model the two's-complement wrap of release builds explicitly (`wsub`).
  Every other subtraction in the source is guarded so that `Nat` truncated
  subtraction coincides with `usize` subtraction on all executions.
* `HashMap<StudentKey, Student>` is modelled as an association list in
  iteration order.  After loading, the program never inserts or removes
  registry entries (it only mutates values in place), so the iteration order
  is fixed for the whole process run, which the list order represents.
* Rust panics (`expect`, `assert!`, slice indexing, debug-mode integer
  underflow of `view.len() - 1`, `String::insert` on a non-boundary) are
  modelled as `Option` results, `none` meaning the operation aborts.
* The random shuffle `bag.shuffle(&mut rng)` (main.rs line 363) is modelled
  by a parameter `sh : Shuffler`; theorems assume `sh` permutes its input.
* The external crate `fuzzy_matcher::skim::SkimMatcherV2` is out of scope
  (an external collaborator); `fuzzy_match` is a parameter `fm : Matcher`
  returning `Option Int` (`Option<i64>`).
* `Vec::sort_by` is a stable sort; a stable sort is uniquely determined by
  its comparator, so we model it with insertion sort (`List.insertionSort`),
  which is stable for the total preorder used here.
-/

namespace Roster

/-- StudentKey, main.rs line 47: `type StudentKey = String;`. -/
abbrev StudentKey := String

/-- Abstract interface of `SkimMatcherV2::fuzzy_match(choice, pattern)`
(external crate, out of scope): the arguments are the lowercased name and
the lowercased query, the result is `Some(score)` on a fuzzy subsequence
match and `None` otherwise. -/
abbrev Matcher := String → String → Option Int

/-- Abstract interface of `bag.shuffle(&mut rng)`: a function producing the
shuffled list.  Theorems assume it yields a permutation of its input. -/
abbrev Shuffler := List StudentKey → List StudentKey

/-- Student record, main.rs lines 48-59. -/
structure Student where
  name : String
  email : StudentKey
  participation_score : Nat
  deferrals : Nat
  absent : Nat
  answered_today : Nat
  color : Nat
deriving Repr, DecidableEq

/-- DisplayMode, main.rs lines 41-45. -/
inductive DisplayMode where
  | Command
  | Searching
deriving Repr, DecidableEq

/-- InputMode, main.rs lines 35-39. -/
inductive InputMode where
  | Command
  | Searching
  | Student
deriving Repr, DecidableEq

/-- App state, main.rs lines 75-95.  The backing file name `db` is omitted
(it is only used by the out-of-scope loader). -/
structure App where
  input : String
  character_index : Nat
  display_mode : DisplayMode
  student_display : Option Student
  students : List (StudentKey × Student)
  order : List StudentKey
  view : List StudentKey
  selection : Option Nat
deriving Repr, DecidableEq

/-- Largest usize value (64-bit targets). -/
def USIZE_MAX : Nat := 2 ^ 64 - 1

/-- Two's-complement wrap of usize subtraction (release-build semantics of
`x - y`, for `x y < 2^64`); with debug assertions the underflowing case
panics instead. -/
def wsub (x y : Nat) : Nat :=
  if y ≤ x then x - y else x + 2 ^ 64 - y

/-- HashMap lookup `self.students.get(k)`, modelled on the association
list. -/
def lookupS (m : List (StudentKey × Student)) (k : StudentKey) : Option Student :=
  match m with
  | [] => none
  | p :: ps => if p.1 = k then some p.2 else lookupS ps k

/-- HashMap in-place value mutation through `get_mut(k)`: apply `f` to the
entry stored under `k` (the key set is unchanged). -/
def updateS (m : List (StudentKey × Student)) (k : StudentKey) (f : Student → Student) :
    List (StudentKey × Student) :=
  m.map (fun p => if p.1 = k then (p.1, f p.2) else p)

/-- HashMap insert: overwrite in place when the key is present, otherwise
append (last row wins, main.rs line 111). -/
def insertStudent (m : List (StudentKey × Student)) (k : StudentKey) (s : Student) :
    List (StudentKey × Student) :=
  if k ∈ m.map Prod.fst then m.map (fun p => if p.1 = k then (k, s) else p)
  else m ++ [(k, s)]

/-- Rust `str::trim`: drop leading and trailing whitespace, modelled on the
character list (the exact whitespace set is not load-bearing here). -/
def trimChars (l : List Char) : List Char :=
  ((l.dropWhile Char.isWhitespace).reverse.dropWhile Char.isWhitespace).reverse

/-- Rust `str::trim` on strings. -/
def trimStr (s : String) : String :=
  String.mk (trimChars s.data)

/-- Registry load, main.rs lines 97-126 (`deserialize_file`).  CSV decoding
is out of scope; `rows` are the already-decoded records.  Each student is
inserted under its trimmed email, with trimmed name and zeroed session
counters. -/
def deserialize_rows (rows : List Student) : List (StudentKey × Student) :=
  rows.foldl
    (fun m s =>
      let email := trimStr s.email
      insertStudent m email
        { name := trimStr s.name
          email := email
          participation_score := s.participation_score
          deferrals := s.deferrals
          absent := s.absent
          answered_today := 0
          color := 0 })
    []

/-- Byte offset of the character at position `k`, main.rs lines 249-255
(`byte_index`): `char_indices().map(i).nth(k).unwrap_or(len)`.  The offset
of the k-th character is the total UTF-8 size of the characters before it;
past the end it is the total byte length, which the same expression
yields because `take` saturates. -/
def byte_index (s : String) (k : Nat) : Nat :=
  ((s.data.take k).map Char.utf8Size).sum

/-- Split a character list at a UTF-8 byte offset; `none` when the offset
falls strictly inside the encoding of a character (not a char boundary). -/
def splitAtByte : List Char → Nat → Option (List Char × List Char)
  | l, 0 => some ([], l)
  | [], _ + 1 => none
  | c :: t, b + 1 =>
    if c.utf8Size ≤ b + 1 then
      (splitAtByte t (b + 1 - c.utf8Size)).map (fun q => (c :: q.1, q.2))
    else none

/-- Rust `String::insert(b, ch)`, main.rs line 240: inserts at byte offset
`b`, panicking (`none`) unless `b` is a character boundary. -/
def insertAtByte (s : String) (b : Nat) (ch : Char) : Option String :=
  (splitAtByte s.data b).map (fun q => String.mk (q.1 ++ ch :: q.2))

/-- Byte offset `b` is a character boundary of `s` (or its total byte
length). -/
def IsCharBoundary (s : String) (b : Nat) : Prop :=
  ∃ l1 l2 : List Char, s.data = l1 ++ l2 ∧ (l1.map Char.utf8Size).sum = b

/-- clamp_cursor, main.rs lines 280-282: `pos.clamp(0, chars().count())`
(the lower clamp is vacuous for usize). -/
def clamp_cursor (a : App) (pos : Nat) : Nat :=
  min pos a.input.length

/-- move_cursor_left, main.rs lines 147-150 (`saturating_sub` is `Nat`
truncated subtraction). -/
def move_cursor_left (a : App) : App :=
  { a with character_index := clamp_cursor a (a.character_index - 1) }

/-- move_cursor_right, main.rs lines 152-155 (`saturating_add(1)` never
saturates in practice; the clamp bounds the result anyway). -/
def move_cursor_right (a : App) : App :=
  { a with character_index := clamp_cursor a (a.character_index + 1) }

/-- move_selection_up, main.rs lines 157-165. -/
def move_selection_up (a : App) : App :=
  match a.selection with
  | none => a
  | some sel => if sel > 0 then { a with selection := some (sel - 1) } else a

/-- move_selection_down, main.rs lines 167-175.  The guard computes
`self.view.len() - 1`; when the view is empty that usize subtraction
underflows (debug-build panic), modelled as `none`. -/
def move_selection_down (a : App) : Option App :=
  match a.selection with
  | none => some a
  | some sel =>
    if a.view.length = 0 then none
    else some (if sel < a.view.length - 1 then { a with selection := some (sel + 1) } else a)

/-- selection_reset, main.rs lines 177-183. -/
def selection_reset (a : App) : App :=
  if a.view.length > 0 then { a with selection := some 0 } else { a with selection := none }

/-- selected_student, main.rs lines 189-198: early `none` propagation of an
absent selection is `some none`; the `assert!(view.len() >= sel)`, the
indexing `view[sel]` and the `.expect` on the registry lookup are panics
(`none`). -/
def selected_student (a : App) : Option (Option Student) :=
  match a.selection with
  | none => some none
  | some sel =>
    if sel ≤ a.view.length then
      match a.view[sel]? with
      | none => none
      | some k =>
        match lookupS a.students k with
        | none => none
        | some s => some (some s)
    else none

/-- display_selected_student, main.rs lines 288-290: snapshot the selected
student (a clone), or clear the snapshot when nothing is selected. -/
def display_selected_student (a : App) : Option App :=
  (selected_student a).map (fun os => { a with student_display := os })

/-- Fuzzy-match pass of update_student_view, main.rs lines 204-216: filter
the registry, in iteration order, to students whose lowercased name matches
the lowercased query, pairing each with its score. -/
def matchedOf (fm : Matcher) (students : List (StudentKey × Student)) (query : String) :
    List (Student × Int) :=
  students.filterMap
    (fun p => (fm p.2.name.toLower query.toLower).map (fun sc => (p.2, sc)))

/-- Comparator of main.rs line 217, `|(_, a), (_, b)| b.cmp(&a)`: sorts by
descending score. -/
def byScoreDesc (x y : Student × Int) : Prop := y.2 ≤ x.2

instance : DecidableRel byScoreDesc := fun x y => inferInstanceAs (Decidable (y.2 ≤ x.2))

instance : IsTotal (Student × Int) byScoreDesc := ⟨fun x y => le_total y.2 x.2⟩

instance : IsTrans (Student × Int) byScoreDesc := ⟨fun _ _ _ h1 h2 => le_trans h2 h1⟩

/-- The stable sort `matched.sort_by(|(_, a), (_, b)| b.cmp(&a))` of
main.rs line 217.  A stable sort is uniquely determined by its comparator,
so insertion sort is an exact model. -/
def sortScoreDesc (l : List (Student × Int)) : List (Student × Int) :=
  l.insertionSort byScoreDesc

/-- Empty-query branch of update_student_view, main.rs lines 222-231: map
each ordered key through the registry (`.expect` panic is `none`) to its
email. -/
def viewFromOrder (students : List (StudentKey × Student)) :
    List StudentKey → Option (List StudentKey)
  | [] => some []
  | k :: ks =>
    match lookupS students k with
    | none => none
    | some s => (viewFromOrder students ks).map (fun v => s.email :: v)

/-- update_student_view, main.rs lines 200-236.  `input.len() != 0` tests
the byte length, which is nonzero exactly when the character count is. -/
def update_student_view (fm : Matcher) (a : App) : Option App :=
  let ov : Option (List StudentKey) :=
    if a.input.length ≠ 0 then
      some ((sortScoreDesc (matchedOf fm a.students a.input)).map (fun q => q.1.email))
    else viewFromOrder a.students a.order
  ov.map (fun v => selection_reset { a with view := v })

/-- enter_char, main.rs lines 238-243: insert at the byte index, move the
cursor right (clamped against the grown input), recompute the view. -/
def enter_char (fm : Matcher) (ch : Char) (a : App) : Option App :=
  match insertAtByte a.input (byte_index a.input a.character_index) ch with
  | none => none
  | some s => update_student_view fm (move_cursor_right { a with input := s })

/-- delete_char, main.rs lines 257-278: when the cursor is not leftmost,
drop the character before it (working in character units) and move the
cursor left; in either case recompute the view. -/
def delete_char (fm : Matcher) (a : App) : Option App :=
  let a1 :=
    if a.character_index ≠ 0 then
      move_cursor_left
        { a with
          input :=
            String.mk
              (a.input.data.take (a.character_index - 1) ++
                a.input.data.drop a.character_index) }
    else a
  update_student_view fm a1

/-- input_clear, main.rs lines 292-296: clear the query, reset the cursor,
recompute the view. -/
def input_clear (fm : Matcher) (a : App) : Option App :=
  update_student_view fm { a with input := "", character_index := 0 }

/-- input_mode, main.rs lines 298-306: a present snapshot forces Student
mode, otherwise the display mode decides. -/
def input_mode (a : App) : InputMode :=
  if a.student_display.isSome then InputMode.Student
  else
    match a.display_mode with
    | DisplayMode.Command => InputMode.Command
    | DisplayMode.Searching => InputMode.Searching

/-- student_escape, main.rs lines 308-310. -/
def student_escape (a : App) : App :=
  { a with student_display := none }

/-- student_absent, main.rs lines 312-314. -/
def student_absent (a : App) : App :=
  student_escape a

/-- student_defer, main.rs lines 316-318. -/
def student_defer (a : App) : App :=
  student_escape a

/-- Fold computing the maximum participation score, main.rs lines 337-345
(accumulator component started at `0`). -/
def maxScore (students : List (StudentKey × Student)) : Nat :=
  students.foldl (fun m p => Nat.max m p.2.participation_score) 0

/-- Fold computing the minimum participation score, main.rs lines 337-345
(accumulator component started at `std::usize::MAX`). -/
def minScore (students : List (StudentKey × Student)) : Nat :=
  students.foldl (fun m p => Nat.min m p.2.participation_score) USIZE_MAX

/-- Ticket bag, main.rs lines 347-356: for each student in iteration order
push its email once per ticket, the ticket count being
`norm - (participation_score - mn) + 1` (the loop `for _ in 0..=chances`
runs `chances + 1` times).  On all executions the subtractions are guarded
by `mn ≤ score ≤ mn + norm`, so `Nat` subtraction is exact. -/
def bagOf (students : List (StudentKey × Student)) (norm mn : Nat) : List StudentKey :=
  match students with
  | [] => []
  | p :: ps =>
    List.replicate ((norm - (p.2.participation_score - mn)) + 1) p.2.email ++ bagOf ps norm mn

/-- Display color bucket, main.rs line 359:
`(((score - min) as f64 / norm as f64) * 4.0).round() as usize` under exact
real arithmetic; for `norm = 0` the division is NaN and the float-to-usize
cast of NaN yields 0.  Rounding is half away from zero, which for
nonnegative rationals is `⌊x + 1/2⌋ = (8a + b) / (2b)` for `x = 4a/b`. -/
def colorOf (score mn norm : Nat) : Nat :=
  if norm = 0 then 0 else (8 * (score - mn) + norm) / (2 * norm)

/-- Color-assignment side effect of the bag-building pass, main.rs lines
357-361: every value gets its recomputed color, keys are untouched. -/
def applyColors (students : List (StudentKey × Student)) (mn norm : Nat) :
    List (StudentKey × Student) :=
  students.map (fun p => (p.1, { p.2 with color := colorOf p.2.participation_score mn norm }))

/-- First-occurrence deduplication of the shuffled bag, main.rs lines
365-370: walk left to right, appending each key not seen before. -/
def firstOccurrences (bag : List StudentKey) : List StudentKey :=
  bag.foldl (fun ord k => if k ∈ ord then ord else ord ++ [k]) []

/-- randomize, main.rs lines 336-376: compute score extremes, build and
shuffle the ticket bag, deduplicate to the new order, assert the order has
one entry per student (`none` on failure), then recompute the view and
reset the selection (the final `selection_reset` of line 375 follows the
one inside `update_student_view`). -/
def randomize (fm : Matcher) (sh : Shuffler) (a : App) : Option App :=
  let mx := maxScore a.students
  let mn := minScore a.students
  let norm := wsub mx mn
  let bag := bagOf a.students norm mn
  let students2 := applyColors a.students mn norm
  let order := firstOccurrences (sh bag)
  if students2.length = order.length then
    (update_student_view fm { a with students := students2, order := order }).map
      selection_reset
  else none

/-- update_data, main.rs lines 380-383 (the write-back is a TODO in the
source and never happens). -/
def update_data (fm : Matcher) (sh : Shuffler) (a : App) : Option App :=
  randomize fm sh a

/-- The entry mutation of student_answer, main.rs lines 328-329:
`s.participation_score += 1; s.answered_today += 1;`. -/
def bumpStudent (t : Student) : Student :=
  { t with
    participation_score := t.participation_score + 1
    answered_today := t.answered_today + 1 }

/-- student_answer, main.rs lines 320-332: assert a snapshot is present,
look up the live entry by the snapshot key (`.expect` panic is `none`),
bump its participation score and answered-today counters, regenerate, then
discard the snapshot. -/
def student_answer (fm : Matcher) (sh : Shuffler) (a : App) : Option App :=
  match a.student_display with
  | none => none
  | some snap =>
    match lookupS a.students snap.email with
    | none => none
    | some _ =>
      let a1 := { a with students := updateS a.students snap.email bumpStudent }
      (update_data fm sh a1).map student_escape

/-- App::new, main.rs lines 129-145: load the registry, start with empty
query and no selection, then run the initial regeneration. -/
def App.new (fm : Matcher) (sh : Shuffler) (rows : List Student) : Option App :=
  randomize fm sh
    { input := ""
      character_index := 0
      display_mode := DisplayMode.Command
      student_display := none
      students := deserialize_rows rows
      order := []
      view := []
      selection := none }

/-- Abstract command surface of main.rs lines 424-513 (`run_app`), one
constructor per distinct transition; `other` stands for any key that the
current mode ignores (including key release events in Searching mode).  The
quit command merely exits the loop and is not a state transition. -/
inductive Cmd where
  | beginSearch
  | reshuffle
  | navUp
  | navDown
  | confirm
  | escape
  | insertChar (ch : Char)
  | backspace
  | cursorLeft
  | cursorRight
  | answer
  | absent
  | deferStudent
  | other
deriving Repr, DecidableEq

/-- One iteration of the event dispatch of run_app, main.rs lines 424-513:
the handler chosen is decided by `input_mode`, and commands not bound in
the current mode are ignored. -/
def step (fm : Matcher) (sh : Shuffler) (c : Cmd) (a : App) : Option App :=
  match input_mode a with
  | InputMode.Command =>
    match c with
    | Cmd.beginSearch => some { a with display_mode := DisplayMode.Searching }
    | Cmd.reshuffle => randomize fm sh a
    | Cmd.navDown => move_selection_down a
    | Cmd.navUp => some (move_selection_up a)
    | Cmd.confirm => display_selected_student a
    | _ => some a
  | InputMode.Searching =>
    match c with
    | Cmd.confirm => display_selected_student a
    | Cmd.navUp => some (move_selection_up a)
    | Cmd.navDown => move_selection_down a
    | Cmd.insertChar ch => enter_char fm ch a
    | Cmd.backspace => delete_char fm a
    | Cmd.cursorLeft => some (move_cursor_left a)
    | Cmd.cursorRight => some (move_cursor_right a)
    | Cmd.escape => input_clear fm { a with display_mode := DisplayMode.Command }
    | _ => some a
  | InputMode.Student =>
    match c with
    | Cmd.deferStudent => some (student_defer a)
    | Cmd.absent => some (student_absent a)
    | Cmd.answer => student_answer fm sh a
    | Cmd.escape => some (student_escape a)
    | _ => some a

/-- States reachable by the event loop: the state produced by `App::new`
from any row file, closed under dispatch steps; each regeneration may use a
fresh shuffle, required to permute its input. -/
inductive Reachable (fm : Matcher) : App → Prop where
  | init (rows : List Student) (sh : Shuffler) (hsh : ∀ l, (sh l).Perm l) (a : App) :
      App.new fm sh rows = some a → Reachable fm a
  | next (sh : Shuffler) (hsh : ∀ l, (sh l).Perm l) (c : Cmd) (a b : App) :
      Reachable fm a → step fm sh c a = some b → Reachable fm b

/-- Selection clamp: the selection is absent exactly when the view is
empty, and otherwise is a valid index into the view. -/
def SelClamp (a : App) : Prop :=
  (a.selection = none ↔ a.view = []) ∧ ∀ i, a.selection = some i → i < a.view.length

/-- Internal consistency invariant of the engine state. -/
structure Wf (a : App) : Prop where
  nodupKeys : (a.students.map Prod.fst).Nodup
  emailEq : ∀ p ∈ a.students, p.2.email = p.1
  orderPerm : a.order.Perm (a.students.map Prod.fst)
  viewKeys : ∀ k ∈ a.view, k ∈ a.students.map Prod.fst
  selNone : a.selection = none ↔ a.view = []
  selLt : ∀ i, a.selection = some i → i < a.view.length
  cursorLe : a.character_index ≤ a.input.length
  snapKey : ∀ s, a.student_display = some s → s.email ∈ a.students.map Prod.fst

/-! ### Concrete fixtures (used to evaluate the development on closed inputs) -/

/-- A matcher that matches nothing. -/
def f0 : Matcher := fun _ _ => none

/-- A matcher that matches everything with score 1. -/
def f1 : Matcher := fun _ _ => some 1

/-- Fixture student keyed "a". -/
def s0 : Student :=
  { name := "x", email := "a", participation_score := 0, deferrals := 0, absent := 0,
    answered_today := 0, color := 0 }

/-- Fixture student keyed "b". -/
def s1 : Student :=
  { name := "y", email := "b", participation_score := 1, deferrals := 0, absent := 0,
    answered_today := 0, color := 0 }

/-- Fixture student keyed "a" with participation score 2. -/
def sA : Student :=
  { name := "x", email := "a", participation_score := 2, deferrals := 0, absent := 0,
    answered_today := 0, color := 0 }

/-- Fixture student keyed "b" with participation score 5. -/
def sB : Student :=
  { name := "y", email := "b", participation_score := 5, deferrals := 0, absent := 0,
    answered_today := 0, color := 0 }

/-- Fixture seed rows. -/
def rows0 : List Student := [s0]

/-- The state produced by `App.new f0 id rows0`. -/
def a0 : App :=
  { input := "", character_index := 0, display_mode := DisplayMode.Command,
    student_display := none, students := [("a", s0)], order := ["a"], view := ["a"],
    selection := some 0 }

/-- A state in Student mode (snapshot present) over the fixture registry. -/
def a3 : App :=
  { input := "", character_index := 0, display_mode := DisplayMode.Command,
    student_display := some s0, students := [("a", s0)], order := ["a"], view := ["a"],
    selection := some 0 }

/-- A state with an active one-character query over a two-student registry. -/
def a7 : App :=
  { input := "b", character_index := 1, display_mode := DisplayMode.Searching,
    student_display := none, students := [("a", s0), ("b", s1)], order := ["a", "b"],
    view := ["a", "b"], selection := some 0 }

/-- A two-student registry with distinct participation scores (2 and 5). -/
def students2 : List (StudentKey × Student) := [("a", sA), ("b", sB)]

/-! ### Association-list lemmas -/

theorem lookupS_mem {m : List (StudentKey × Student)} {k : StudentKey} {s : Student}
    (h : lookupS m k = some s) : (k, s) ∈ m := by
  induction m with
  | nil => simp [lookupS] at h
  | cons p ps ih =>
    obtain ⟨k1, s1⟩ := p
    rw [lookupS] at h
    by_cases hp : k1 = k
    · subst hp
      rw [if_pos rfl, Option.some.injEq] at h
      subst h
      exact List.mem_cons_self _ _
    · rw [if_neg hp] at h
      exact List.mem_cons_of_mem _ (ih h)

theorem lookupS_isSome_of_mem_keys {m : List (StudentKey × Student)} {k : StudentKey}
    (h : k ∈ m.map Prod.fst) : ∃ s, lookupS m k = some s := by
  induction m with
  | nil => simp at h
  | cons p ps ih =>
    rw [lookupS]
    by_cases hp : p.1 = k
    · exact ⟨p.2, by simp [hp]⟩
    · simp only [List.map_cons, List.mem_cons] at h
      rcases h with h | h
      · exact absurd h.symm hp
      · simpa [hp] using ih h

theorem lookupS_eq_none_of_not_mem {m : List (StudentKey × Student)} {k : StudentKey}
    (h : k ∉ m.map Prod.fst) : lookupS m k = none := by
  induction m with
  | nil => rfl
  | cons p ps ih =>
    simp only [List.map_cons, List.mem_cons, not_or] at h
    rw [lookupS, if_neg (fun hp => h.1 hp.symm)]
    exact ih h.2

theorem lookupS_of_mem_nodup {m : List (StudentKey × Student)} {k : StudentKey} {s : Student}
    (hmem : (k, s) ∈ m) (hnd : (m.map Prod.fst).Nodup) : lookupS m k = some s := by
  induction m with
  | nil => simp at hmem
  | cons p ps ih =>
    simp only [List.map_cons, List.nodup_cons] at hnd
    rcases List.mem_cons.mp hmem with h | h
    · rw [← h, lookupS, if_pos rfl]
    · have hk : k ∈ ps.map Prod.fst := List.mem_map.mpr ⟨(k, s), h, rfl⟩
      have hne : p.1 ≠ k := fun hp => hnd.1 (hp ▸ hk)
      rw [lookupS, if_neg hne]
      exact ih h hnd.2

theorem updateS_map_fst (m : List (StudentKey × Student)) (k : StudentKey)
    (f : Student → Student) : (updateS m k f).map Prod.fst = m.map Prod.fst := by
  induction m with
  | nil => rfl
  | cons p ps ih =>
    simp only [updateS, List.map_cons] at ih ⊢
    by_cases hp : p.1 = k <;> simp [hp, ih]

theorem lookupS_updateS (m : List (StudentKey × Student)) (k k2 : StudentKey)
    (f : Student → Student) :
    lookupS (updateS m k f) k2 =
      if k2 = k then (lookupS m k2).map f else lookupS m k2 := by
  induction m with
  | nil => simp [updateS, lookupS]
  | cons p ps ih =>
    obtain ⟨k1, s1⟩ := p
    simp only [updateS, List.map_cons] at ih ⊢
    by_cases hp : k1 = k
    · subst hp
      by_cases h2 : k2 = k1
      · subst h2
        simp [lookupS, ih]
      · have h2s : ¬ k1 = k2 := fun h => h2 h.symm
        simp [lookupS, h2, h2s, ih]
    · by_cases h2 : k2 = k1
      · subst h2
        have hne : ¬ k2 = k := hp
        simp [lookupS, hp, hne]
      · have h2s : ¬ k1 = k2 := fun h => h2 h.symm
        simp [lookupS, hp, h2s, ih]

theorem mapVal_map_fst (m : List (StudentKey × Student)) (g : Student → Student) :
    (m.map (fun p => (p.1, g p.2))).map Prod.fst = m.map Prod.fst := by
  induction m with
  | nil => rfl
  | cons p ps ih => simp only [List.map_cons, ih]

theorem lookupS_mapVal (m : List (StudentKey × Student)) (g : Student → Student)
    (k : StudentKey) :
    lookupS (m.map (fun p => (p.1, g p.2))) k = (lookupS m k).map g := by
  induction m with
  | nil => rfl
  | cons p ps ih =>
    rw [List.map_cons, lookupS, lookupS]
    by_cases hp : p.1 = k <;> simp [hp, ih]

theorem applyColors_eq_mapVal (m : List (StudentKey × Student)) (mn norm : Nat) :
    applyColors m mn norm =
      m.map (fun p => (p.1, { p.2 with color := colorOf p.2.participation_score mn norm })) :=
  rfl

theorem applyColors_map_fst (m : List (StudentKey × Student)) (mn norm : Nat) :
    (applyColors m mn norm).map Prod.fst = m.map Prod.fst := by
  rw [applyColors_eq_mapVal]
  exact mapVal_map_fst m
    (fun s => { s with color := colorOf s.participation_score mn norm })

theorem emailEq_applyColors {m : List (StudentKey × Student)} (mn norm : Nat)
    (hem : ∀ p ∈ m, p.2.email = p.1) :
    ∀ p ∈ applyColors m mn norm, p.2.email = p.1 := by
  intro p hp
  rw [applyColors_eq_mapVal] at hp
  obtain ⟨q, hq, rfl⟩ := List.mem_map.mp hp
  exact hem q hq

theorem emailEq_updateS {m : List (StudentKey × Student)} {k : StudentKey}
    {f : Student → Student} (hf : ∀ s, (f s).email = s.email)
    (hem : ∀ p ∈ m, p.2.email = p.1) :
    ∀ p ∈ updateS m k f, p.2.email = p.1 := by
  intro p hp
  obtain ⟨q, hq, hpq⟩ := List.mem_map.mp hp
  by_cases h : q.1 = k
  · rw [if_pos h] at hpq
    rw [← hpq]
    exact (hf q.2).trans (hem q hq)
  · rw [if_neg h] at hpq
    rw [← hpq]
    exact hem q hq

/-! ### Score-fold lemmas -/

theorem foldl_min_le_init (l : List (StudentKey × Student)) (acc : Nat) :
    l.foldl (fun m p => Nat.min m p.2.participation_score) acc ≤ acc := by
  induction l generalizing acc with
  | nil => exact le_refl _
  | cons p ps ih =>
    exact le_trans (ih _) (Nat.min_le_left _ _)

theorem foldl_min_le_mem {l : List (StudentKey × Student)} {q : StudentKey × Student}
    (hq : q ∈ l) (acc : Nat) :
    l.foldl (fun m p => Nat.min m p.2.participation_score) acc ≤ q.2.participation_score := by
  induction l generalizing acc with
  | nil => simp at hq
  | cons p ps ih =>
    rcases List.mem_cons.mp hq with h | h
    · subst h
      simp only [List.foldl_cons]
      exact le_trans (foldl_min_le_init _ _) (Nat.min_le_right _ _)
    · exact ih h _

theorem foldl_min_cases (l : List (StudentKey × Student)) (acc : Nat) :
    l.foldl (fun m p => Nat.min m p.2.participation_score) acc = acc ∨
      ∃ q ∈ l, l.foldl (fun m p => Nat.min m p.2.participation_score) acc =
        q.2.participation_score := by
  induction l generalizing acc with
  | nil => exact Or.inl rfl
  | cons p ps ih =>
    simp only [List.foldl_cons]
    rcases ih (Nat.min acc p.2.participation_score) with h | ⟨q, hq, h⟩
    · rcases Nat.le_total acc p.2.participation_score with hle | hle
      · exact Or.inl (by rw [h]; exact Nat.min_eq_left hle)
      · exact Or.inr ⟨p, List.mem_cons_self _ _, by rw [h]; exact Nat.min_eq_right hle⟩
    · exact Or.inr ⟨q, List.mem_cons_of_mem _ hq, h⟩

theorem foldl_max_init_le (l : List (StudentKey × Student)) (acc : Nat) :
    acc ≤ l.foldl (fun m p => Nat.max m p.2.participation_score) acc := by
  induction l generalizing acc with
  | nil => exact le_refl _
  | cons p ps ih =>
    exact le_trans (Nat.le_max_left _ _) (ih _)

theorem foldl_max_mem_le {l : List (StudentKey × Student)} {q : StudentKey × Student}
    (hq : q ∈ l) (acc : Nat) :
    q.2.participation_score ≤ l.foldl (fun m p => Nat.max m p.2.participation_score) acc := by
  induction l generalizing acc with
  | nil => simp at hq
  | cons p ps ih =>
    rcases List.mem_cons.mp hq with h | h
    · subst h
      simp only [List.foldl_cons]
      exact le_trans (Nat.le_max_right _ _) (foldl_max_init_le _ _)
    · exact ih h _

theorem foldl_max_cases (l : List (StudentKey × Student)) (acc : Nat) :
    l.foldl (fun m p => Nat.max m p.2.participation_score) acc = acc ∨
      ∃ q ∈ l, l.foldl (fun m p => Nat.max m p.2.participation_score) acc =
        q.2.participation_score := by
  induction l generalizing acc with
  | nil => exact Or.inl rfl
  | cons p ps ih =>
    simp only [List.foldl_cons]
    rcases ih (Nat.max acc p.2.participation_score) with h | ⟨q, hq, h⟩
    · rcases Nat.le_total acc p.2.participation_score with hle | hle
      · exact Or.inr ⟨p, List.mem_cons_self _ _, by rw [h]; exact Nat.max_eq_right hle⟩
      · exact Or.inl (by rw [h]; exact Nat.max_eq_left hle)
    · exact Or.inr ⟨q, List.mem_cons_of_mem _ hq, h⟩

theorem minScore_le {m : List (StudentKey × Student)} {q : StudentKey × Student} (hq : q ∈ m) :
    minScore m ≤ q.2.participation_score :=
  foldl_min_le_mem hq _

theorem le_maxScore {m : List (StudentKey × Student)} {q : StudentKey × Student} (hq : q ∈ m) :
    q.2.participation_score ≤ maxScore m :=
  foldl_max_mem_le hq _

theorem minScore_attained {m : List (StudentKey × Student)} (hne : m ≠ [])
    (hb : ∀ p ∈ m, p.2.participation_score ≤ USIZE_MAX) :
    ∃ q ∈ m, minScore m = q.2.participation_score := by
  rcases foldl_min_cases m USIZE_MAX with h | h
  · obtain ⟨p, ps, rfl⟩ := List.exists_cons_of_ne_nil hne
    refine ⟨p, List.mem_cons_self _ _, le_antisymm (minScore_le (List.mem_cons_self _ _)) ?_⟩
    have h2 : minScore (p :: ps) = USIZE_MAX := h
    rw [h2]
    exact hb p (List.mem_cons_self _ _)
  · exact h

theorem maxScore_attained {m : List (StudentKey × Student)} (hne : m ≠ []) :
    ∃ q ∈ m, maxScore m = q.2.participation_score := by
  rcases foldl_max_cases m 0 with h | h
  · obtain ⟨p, ps, rfl⟩ := List.exists_cons_of_ne_nil hne
    refine ⟨p, List.mem_cons_self _ _, le_antisymm ?_ (le_maxScore (List.mem_cons_self _ _))⟩
    have h2 : maxScore (p :: ps) = 0 := h
    rw [h2]
    exact Nat.zero_le _
  · exact h

/-! ### Ticket-bag lemmas -/

theorem mem_bagOf_iff {m : List (StudentKey × Student)} {norm mn : Nat} {k : StudentKey} :
    k ∈ bagOf m norm mn ↔ ∃ p ∈ m, p.2.email = k := by
  induction m with
  | nil => simp [bagOf]
  | cons p ps ih =>
    rw [bagOf, List.mem_append, List.mem_replicate]
    constructor
    · rintro (⟨-, rfl⟩ | h)
      · exact ⟨p, List.mem_cons_self _ _, rfl⟩
      · obtain ⟨q, hq, hqe⟩ := ih.mp h
        exact ⟨q, List.mem_cons_of_mem _ hq, hqe⟩
    · rintro ⟨q, hq, hqe⟩
      rcases List.mem_cons.mp hq with rfl | h
      · exact Or.inl ⟨Nat.succ_ne_zero _, hqe.symm⟩
      · exact Or.inr (ih.mpr ⟨q, h, hqe⟩)

theorem count_bagOf_eq_zero {m : List (StudentKey × Student)} {norm mn : Nat} {k : StudentKey}
    (hem : ∀ p ∈ m, p.2.email = p.1) (hk : k ∉ m.map Prod.fst) :
    (bagOf m norm mn).count k = 0 := by
  rw [List.count_eq_zero]
  intro hmem
  obtain ⟨p, hp, hpe⟩ := mem_bagOf_iff.mp hmem
  exact hk (List.mem_map.mpr ⟨p, hp, (hem p hp) ▸ hpe⟩)

theorem count_bagOf {m : List (StudentKey × Student)} {norm mn : Nat}
    {k : StudentKey} {s : Student} (hmem : (k, s) ∈ m)
    (hnd : (m.map Prod.fst).Nodup) (hem : ∀ p ∈ m, p.2.email = p.1) :
    (bagOf m norm mn).count k = (norm - (s.participation_score - mn)) + 1 := by
  induction m with
  | nil => simp at hmem
  | cons p ps ih =>
    simp only [List.map_cons, List.nodup_cons] at hnd
    have hemp : p.2.email = p.1 := hem p (List.mem_cons_self _ _)
    have hems : ∀ q ∈ ps, q.2.email = q.1 := fun q hq => hem q (List.mem_cons_of_mem _ hq)
    rw [bagOf, List.count_append]
    rcases List.mem_cons.mp hmem with h | h
    · have h1 : p.1 = k := by rw [← h]
      have h2 : p.2 = s := by rw [← h]
      have hkps : k ∉ ps.map Prod.fst := h1 ▸ hnd.1
      rw [count_bagOf_eq_zero hems hkps, List.count_replicate]
      rw [hemp, h1, h2]
      simp
    · have hkps : k ∈ ps.map Prod.fst := List.mem_map.mpr ⟨(k, s), h, rfl⟩
      have hne : p.2.email ≠ k := by
        rw [hemp]
        exact fun hp => hnd.1 (hp ▸ hkps)
      rw [List.count_replicate, if_neg (by simpa using hne), ih h hnd.2 hems]
      simp

/-! ### First-occurrence deduplication lemmas -/

theorem foldl_dedup_nodup (bag : List StudentKey) (acc : List StudentKey)
    (hacc : acc.Nodup) :
    (bag.foldl (fun ord k => if k ∈ ord then ord else ord ++ [k]) acc).Nodup := by
  induction bag generalizing acc with
  | nil => exact hacc
  | cons k ks ih =>
    rw [List.foldl_cons]
    by_cases hk : k ∈ acc
    · rw [if_pos hk]; exact ih _ hacc
    · rw [if_neg hk]
      exact ih _ (by simp [List.nodup_append, hacc, hk])

theorem mem_foldl_dedup (bag : List StudentKey) (acc : List StudentKey) (x : StudentKey) :
    x ∈ bag.foldl (fun ord k => if k ∈ ord then ord else ord ++ [k]) acc ↔
      x ∈ acc ∨ x ∈ bag := by
  induction bag generalizing acc with
  | nil => simp
  | cons k ks ih =>
    rw [List.foldl_cons]
    by_cases hk : k ∈ acc
    · rw [if_pos hk, ih]
      constructor
      · rintro (h | h)
        · exact Or.inl h
        · exact Or.inr (List.mem_cons_of_mem _ h)
      · rintro (h | h)
        · exact Or.inl h
        · rcases List.mem_cons.mp h with rfl | h
          · exact Or.inl hk
          · exact Or.inr h
    · rw [if_neg hk, ih]
      simp only [List.mem_append, List.mem_singleton, List.mem_cons]
      tauto

theorem firstOccurrences_nodup (bag : List StudentKey) : (firstOccurrences bag).Nodup :=
  foldl_dedup_nodup bag [] List.nodup_nil

theorem mem_firstOccurrences {bag : List StudentKey} {x : StudentKey} :
    x ∈ firstOccurrences bag ↔ x ∈ bag := by
  rw [firstOccurrences, mem_foldl_dedup]
  simp

/-! ### Byte-boundary lemmas -/

theorem splitAtByte_take (l : List Char) (k : Nat) :
    splitAtByte l (((l.take k).map Char.utf8Size).sum) = some (l.take k, l.drop k) := by
  induction l generalizing k with
  | nil => simp [splitAtByte]
  | cons c t ih =>
    cases k with
    | zero => simp [splitAtByte]
    | succ j =>
      rw [List.take_succ_cons, List.map_cons, List.sum_cons, List.drop_succ_cons]
      obtain ⟨b, hb⟩ :
          ∃ b, c.utf8Size + ((t.take j).map Char.utf8Size).sum = b + 1 :=
        ⟨c.utf8Size + ((t.take j).map Char.utf8Size).sum - 1, by
          have := c.utf8Size_pos
          omega⟩
      rw [hb, splitAtByte, if_pos (by have := c.utf8Size_pos; omega)]
      have hs : b + 1 - c.utf8Size = ((t.take j).map Char.utf8Size).sum := by omega
      rw [hs, ih]
      rfl

/-! ### Selection-reset and view-recomputation lemmas -/

theorem selection_reset_eq (a : App) :
    selection_reset a =
      { a with selection := if a.view.length > 0 then some 0 else none } := by
  rw [selection_reset]
  split_ifs <;> rfl

@[simp] theorem selection_reset_students (a : App) :
    (selection_reset a).students = a.students := by
  rw [selection_reset_eq]

@[simp] theorem selection_reset_order (a : App) :
    (selection_reset a).order = a.order := by
  rw [selection_reset_eq]

@[simp] theorem selection_reset_view (a : App) :
    (selection_reset a).view = a.view := by
  rw [selection_reset_eq]

@[simp] theorem selection_reset_input (a : App) :
    (selection_reset a).input = a.input := by
  rw [selection_reset_eq]

@[simp] theorem selection_reset_character_index (a : App) :
    (selection_reset a).character_index = a.character_index := by
  rw [selection_reset_eq]

@[simp] theorem selection_reset_display_mode (a : App) :
    (selection_reset a).display_mode = a.display_mode := by
  rw [selection_reset_eq]

@[simp] theorem selection_reset_student_display (a : App) :
    (selection_reset a).student_display = a.student_display := by
  rw [selection_reset_eq]

theorem selClamp_selection_reset (a : App) : SelClamp (selection_reset a) := by
  rw [selection_reset_eq, SelClamp]
  by_cases h : a.view.length > 0
  · simp only [if_pos h]
    constructor
    · constructor
      · intro hc; exact absurd hc (by simp)
      · intro hv; rw [hv] at h; simp at h
    · intro i hi
      simp only [Option.some.injEq] at hi
      rw [← hi]
      exact h
  · have hv : a.view = [] := List.length_eq_zero.mp (by omega)
    simp [if_neg h, hv]

theorem viewFromOrder_eq {m : List (StudentKey × Student)}
    (hem : ∀ p ∈ m, p.2.email = p.1) :
    ∀ {order : List StudentKey}, (∀ k ∈ order, k ∈ m.map Prod.fst) →
      viewFromOrder m order = some order := by
  intro order hord
  induction order with
  | nil => rfl
  | cons k ks ih =>
    obtain ⟨s, hs⟩ := lookupS_isSome_of_mem_keys (hord k (List.mem_cons_self _ _))
    have hse : s.email = k := hem (k, s) (lookupS_mem hs)
    simp only [viewFromOrder, hs, ih (fun k2 hk2 => hord k2 (List.mem_cons_of_mem _ hk2)),
      Option.map_some']
    rw [hse]

theorem mem_matchedOf {fm : Matcher} {m : List (StudentKey × Student)} {query : String}
    {q : Student × Int} (hq : q ∈ matchedOf fm m query) : ∃ p ∈ m, q.1 = p.2 := by
  rw [matchedOf] at hq
  obtain ⟨p, hp, hf⟩ := List.mem_filterMap.mp hq
  obtain ⟨sc, -, hq2⟩ := Option.map_eq_some'.mp hf
  exact ⟨p, hp, by rw [← hq2]⟩

theorem update_student_view_spec (fm : Matcher) (a : App)
    (hem : ∀ p ∈ a.students, p.2.email = p.1)
    (hord : ∀ k ∈ a.order, k ∈ a.students.map Prod.fst) :
    ∃ v, update_student_view fm a = some (selection_reset { a with view := v }) ∧
      (∀ k ∈ v, k ∈ a.students.map Prod.fst) ∧
      (a.input = "" → v = a.order) := by
  rw [update_student_view]
  by_cases h : a.input.length ≠ 0
  · refine ⟨(sortScoreDesc (matchedOf fm a.students a.input)).map (fun q => q.1.email),
      by rw [if_pos h, Option.map_some'], ?_, ?_⟩
    · intro k hk
      obtain ⟨q, hq, hqe⟩ := List.mem_map.mp hk
      have hqm : q ∈ matchedOf fm a.students a.input :=
        (List.perm_insertionSort byScoreDesc _).mem_iff.mp hq
      obtain ⟨p, hp, hq1⟩ := mem_matchedOf hqm
      have : q.1.email = p.1 := by rw [hq1]; exact hem p hp
      exact List.mem_map.mpr ⟨p, hp, by rw [← hqe, this]⟩
    · intro hinput
      exact absurd (by rw [hinput]; rfl) h
  · refine ⟨a.order, ?_, hord, fun _ => rfl⟩
    rw [if_neg h, viewFromOrder_eq hem hord, Option.map_some']

theorem randomize_spec (fm : Matcher) (sh : Shuffler) (a : App)
    (hnd : (a.students.map Prod.fst).Nodup)
    (hem : ∀ p ∈ a.students, p.2.email = p.1)
    (hsh : ∀ l, (sh l).Perm l) :
    ∃ b, randomize fm sh a = some b ∧
      b.students = applyColors a.students (minScore a.students)
        (wsub (maxScore a.students) (minScore a.students)) ∧
      b.order.Perm (a.students.map Prod.fst) ∧
      b.input = a.input ∧
      b.character_index = a.character_index ∧
      b.display_mode = a.display_mode ∧
      b.student_display = a.student_display ∧
      (∀ k ∈ b.view, k ∈ a.students.map Prod.fst) ∧
      SelClamp b := by
  have hmemiff : ∀ x, x ∈ firstOccurrences
      (sh (bagOf a.students (wsub (maxScore a.students) (minScore a.students))
        (minScore a.students))) ↔ x ∈ a.students.map Prod.fst := by
    intro x
    rw [mem_firstOccurrences, (hsh _).mem_iff, mem_bagOf_iff]
    constructor
    · rintro ⟨p, hp, rfl⟩
      exact List.mem_map.mpr ⟨p, hp, (hem p hp).symm⟩
    · intro hx
      obtain ⟨p, hp, hpx⟩ := List.mem_map.mp hx
      exact ⟨p, hp, (hem p hp).trans hpx⟩
  have hperm : (firstOccurrences
      (sh (bagOf a.students (wsub (maxScore a.students) (minScore a.students))
        (minScore a.students)))).Perm (a.students.map Prod.fst) :=
    (List.perm_ext_iff_of_nodup (firstOccurrences_nodup _) hnd).mpr hmemiff
  have hlen : (applyColors a.students (minScore a.students)
      (wsub (maxScore a.students) (minScore a.students))).length =
      (firstOccurrences
        (sh (bagOf a.students (wsub (maxScore a.students) (minScore a.students))
          (minScore a.students)))).length := by
    have h1 : (applyColors a.students (minScore a.students)
        (wsub (maxScore a.students) (minScore a.students))).map Prod.fst =
        a.students.map Prod.fst := applyColors_map_fst _ _ _
    calc (applyColors a.students (minScore a.students)
          (wsub (maxScore a.students) (minScore a.students))).length
        = ((applyColors a.students (minScore a.students)
            (wsub (maxScore a.students) (minScore a.students))).map Prod.fst).length := by
          rw [List.length_map]
      _ = (a.students.map Prod.fst).length := by rw [h1]
      _ = _ := hperm.length_eq.symm
  have hem2 : ∀ p ∈ applyColors a.students (minScore a.students)
      (wsub (maxScore a.students) (minScore a.students)), p.2.email = p.1 :=
    emailEq_applyColors _ _ hem
  have hord2 : ∀ k ∈ firstOccurrences
      (sh (bagOf a.students (wsub (maxScore a.students) (minScore a.students))
        (minScore a.students))),
      k ∈ (applyColors a.students (minScore a.students)
        (wsub (maxScore a.students) (minScore a.students))).map Prod.fst := by
    intro k hk
    rw [applyColors_map_fst]
    exact (hmemiff k).mp hk
  obtain ⟨v, husv, hvmem, -⟩ :=
    update_student_view_spec fm
      { a with
        students := applyColors a.students (minScore a.students)
          (wsub (maxScore a.students) (minScore a.students))
        order := firstOccurrences
          (sh (bagOf a.students (wsub (maxScore a.students) (minScore a.students))
            (minScore a.students))) }
      hem2 hord2
  rw [applyColors_map_fst] at hvmem
  refine ⟨selection_reset (selection_reset
      { a with
        students := applyColors a.students (minScore a.students)
          (wsub (maxScore a.students) (minScore a.students))
        order := firstOccurrences
          (sh (bagOf a.students (wsub (maxScore a.students) (minScore a.students))
            (minScore a.students)))
        view := v }), ?_, ?_, ?_, ?_, ?_, ?_, ?_, ?_, ?_⟩
  · simp only [randomize]
    rw [if_pos hlen, husv]
    rfl
  · simp
  · simpa using hperm
  · simp
  · simp
  · simp
  · simp
  · simpa using hvmem
  · exact selClamp_selection_reset _

/-! ### Invariant preservation, operation by operation -/

theorem wf_set_display_mode {a : App} (hW : Wf a) (d : DisplayMode) :
    Wf { a with display_mode := d } :=
  ⟨hW.nodupKeys, hW.emailEq, hW.orderPerm, hW.viewKeys, hW.selNone, hW.selLt,
    hW.cursorLe, hW.snapKey⟩

theorem wf_student_escape {a : App} (hW : Wf a) : Wf (student_escape a) :=
  ⟨hW.nodupKeys, hW.emailEq, hW.orderPerm, hW.viewKeys, hW.selNone, hW.selLt,
    hW.cursorLe, fun s hs => absurd hs (by simp [student_escape])⟩

theorem wf_move_cursor_left {a : App} (hW : Wf a) : Wf (move_cursor_left a) :=
  ⟨hW.nodupKeys, hW.emailEq, hW.orderPerm, hW.viewKeys, hW.selNone, hW.selLt,
    Nat.min_le_right _ _, hW.snapKey⟩

theorem wf_move_cursor_right {a : App} (hW : Wf a) : Wf (move_cursor_right a) :=
  ⟨hW.nodupKeys, hW.emailEq, hW.orderPerm, hW.viewKeys, hW.selNone, hW.selLt,
    Nat.min_le_right _ _, hW.snapKey⟩

theorem wf_move_selection_up {a : App} (hW : Wf a) : Wf (move_selection_up a) := by
  cases hsel : a.selection with
  | none => simpa only [move_selection_up, hsel] using hW
  | some sel =>
    simp only [move_selection_up, hsel]
    by_cases hpos : sel > 0
    · rw [if_pos hpos]
      have hvne : a.view ≠ [] := fun hv => by
        rw [hW.selNone.mpr hv] at hsel
        exact Option.noConfusion hsel
      refine ⟨hW.nodupKeys, hW.emailEq, hW.orderPerm, hW.viewKeys, ?_, ?_, hW.cursorLe,
        hW.snapKey⟩
      · simp only
        constructor
        · intro hc; exact absurd hc (by simp)
        · intro hv; exact absurd hv hvne
      · intro i hi
        simp only [Option.some.injEq] at hi
        have := hW.selLt sel hsel
        show i < a.view.length
        omega
    · rw [if_neg hpos]
      exact hW

theorem move_selection_down_spec {a : App} (hW : Wf a) :
    ∃ b, move_selection_down a = some b ∧ Wf b := by
  cases hsel : a.selection with
  | none => exact ⟨a, by simp only [move_selection_down, hsel], hW⟩
  | some sel =>
    simp only [move_selection_down, hsel]
    have hvne : a.view ≠ [] := fun hv => by
      rw [hW.selNone.mpr hv] at hsel
      exact Option.noConfusion hsel
    have hlen : a.view.length ≠ 0 := fun h => hvne (List.length_eq_zero.mp h)
    rw [if_neg hlen]
    by_cases hlt : sel < a.view.length - 1
    · rw [if_pos hlt]
      refine ⟨_, rfl, ⟨hW.nodupKeys, hW.emailEq, hW.orderPerm, hW.viewKeys, ?_, ?_,
        hW.cursorLe, hW.snapKey⟩⟩
      · simp only
        constructor
        · intro hc; exact absurd hc (by simp)
        · intro hv; exact absurd hv hvne
      · intro i hi
        simp only [Option.some.injEq] at hi
        show i < a.view.length
        omega
    · rw [if_neg hlt]
      exact ⟨a, rfl, hW⟩

theorem selected_student_spec {a : App} (hW : Wf a) :
    ∃ os, selected_student a = some os ∧
      ∀ s, os = some s → s.email ∈ a.students.map Prod.fst := by
  cases hsel : a.selection with
  | none =>
    refine ⟨none, ?_, by simp⟩
    simp [selected_student, hsel]
  | some sel =>
    have hlt : sel < a.view.length := hW.selLt sel hsel
    have hget : a.view[sel]? = some a.view[sel] := List.getElem?_eq_getElem hlt
    have hkmem : a.view[sel] ∈ a.students.map Prod.fst :=
      hW.viewKeys _ (a.view.getElem_mem hlt)
    obtain ⟨s, hs⟩ := lookupS_isSome_of_mem_keys hkmem
    refine ⟨some s, ?_, ?_⟩
    · simp only [selected_student, hsel, hget, hs]
      rw [if_pos (Nat.le_of_lt hlt)]
    · intro s2 hs2
      rw [Option.some.injEq] at hs2
      subst hs2
      have : s.email = a.view[sel] := hW.emailEq _ (lookupS_mem hs)
      rw [this]
      exact hkmem

theorem display_selected_student_spec {a : App} (hW : Wf a) :
    ∃ b, display_selected_student a = some b ∧ Wf b ∧
      b.students = a.students ∧ b.order = a.order ∧ b.view = a.view ∧
      b.selection = a.selection ∧ b.input = a.input ∧
      b.display_mode = a.display_mode := by
  obtain ⟨os, hos, hosk⟩ := selected_student_spec hW
  refine ⟨{ a with student_display := os }, ?_, ?_, rfl, rfl, rfl, rfl, rfl, rfl⟩
  · rw [display_selected_student, hos, Option.map_some']
  · exact ⟨hW.nodupKeys, hW.emailEq, hW.orderPerm, hW.viewKeys, hW.selNone, hW.selLt,
      hW.cursorLe, fun s hs => hosk s hs⟩

theorem wf_update_student_view (fm : Matcher) (a : App)
    (hnd : (a.students.map Prod.fst).Nodup)
    (hem : ∀ p ∈ a.students, p.2.email = p.1)
    (hord : a.order.Perm (a.students.map Prod.fst))
    (hcur : a.character_index ≤ a.input.length)
    (hsnap : ∀ s, a.student_display = some s → s.email ∈ a.students.map Prod.fst) :
    ∃ b, update_student_view fm a = some b ∧ Wf b ∧
      b.students = a.students ∧ b.order = a.order ∧ b.input = a.input ∧
      b.character_index = a.character_index ∧ b.display_mode = a.display_mode ∧
      b.student_display = a.student_display := by
  obtain ⟨v, husv, hvmem, -⟩ :=
    update_student_view_spec fm a hem (fun k hk => hord.mem_iff.mp hk)
  have hclamp := selClamp_selection_reset { a with view := v }
  refine ⟨selection_reset { a with view := v }, husv, ?_, by simp, by simp, by simp,
    by simp, by simp, by simp⟩
  exact ⟨by simpa using hnd, by simpa using hem, by simpa using hord,
    by simpa using hvmem, hclamp.1, hclamp.2, by simpa using hcur,
    by simpa using hsnap⟩

theorem wf_randomize (fm : Matcher) (sh : Shuffler) (a : App)
    (hnd : (a.students.map Prod.fst).Nodup)
    (hem : ∀ p ∈ a.students, p.2.email = p.1)
    (hcur : a.character_index ≤ a.input.length)
    (hsnap : ∀ s, a.student_display = some s → s.email ∈ a.students.map Prod.fst)
    (hsh : ∀ l, (sh l).Perm l) :
    ∃ b, randomize fm sh a = some b ∧ Wf b ∧
      b.student_display = a.student_display ∧ b.display_mode = a.display_mode ∧
      b.input = a.input ∧ b.students.map Prod.fst = a.students.map Prod.fst ∧
      b.students = applyColors a.students (minScore a.students)
        (wsub (maxScore a.students) (minScore a.students)) := by
  obtain ⟨b, hb, hbs, hbord, hbin, hbci, hbdm, hbsd, hbview, hbclamp⟩ :=
    randomize_spec fm sh a hnd hem hsh
  have hkeys : b.students.map Prod.fst = a.students.map Prod.fst := by
    rw [hbs, applyColors_map_fst]
  refine ⟨b, hb, ?_, hbsd, hbdm, hbin, hkeys, hbs⟩
  refine ⟨?_, ?_, ?_, ?_, hbclamp.1, hbclamp.2, ?_, ?_⟩
  · rw [hkeys]; exact hnd
  · rw [hbs]; exact emailEq_applyColors _ _ hem
  · rw [hkeys]; exact hbord
  · rw [hkeys]; exact hbview
  · rw [hbin, hbci]; exact hcur
  · rw [hkeys, hbsd]; exact hsnap

/-! ### Query editing -/

theorem insertAtByte_byte_index (s : String) (k : Nat) (ch : Char) :
    insertAtByte s (byte_index s k) ch =
      some (String.mk (s.data.take k ++ ch :: s.data.drop k)) := by
  rw [insertAtByte, byte_index, splitAtByte_take]
  rfl

theorem move_cursor_right_eq (a : App) :
    move_cursor_right a =
      { a with character_index := min (a.character_index + 1) a.input.length } :=
  rfl

theorem move_cursor_left_eq (a : App) :
    move_cursor_left a =
      { a with character_index := min (a.character_index - 1) a.input.length } :=
  rfl

theorem wf_enter_char (fm : Matcher) (ch : Char) {a : App} (hW : Wf a) :
    ∃ b, enter_char fm ch a = some b ∧ Wf b ∧ b.students = a.students ∧
      b.order = a.order ∧ b.display_mode = a.display_mode ∧
      b.student_display = a.student_display := by
  obtain ⟨b, husv, hWb, hbs, hbo, hbi, hbci, hbdm, hbsd⟩ := wf_update_student_view fm
    (move_cursor_right
      { a with input := String.mk (a.input.data.take a.character_index ++
          ch :: a.input.data.drop a.character_index) })
    hW.nodupKeys hW.emailEq hW.orderPerm (Nat.min_le_right _ _) hW.snapKey
  refine ⟨b, ?_, hWb, hbs, hbo, hbdm, hbsd⟩
  rw [enter_char, insertAtByte_byte_index]
  exact husv

theorem wf_delete_char (fm : Matcher) {a : App} (hW : Wf a) :
    ∃ b, delete_char fm a = some b ∧ Wf b := by
  by_cases hci : a.character_index ≠ 0
  · obtain ⟨b, husv, hWb, -⟩ := wf_update_student_view fm
      (move_cursor_left
        { a with input := String.mk (a.input.data.take (a.character_index - 1) ++
            a.input.data.drop a.character_index) })
      hW.nodupKeys hW.emailEq hW.orderPerm (Nat.min_le_right _ _) hW.snapKey
    refine ⟨b, ?_, hWb⟩
    rw [delete_char, if_pos hci]
    exact husv
  · obtain ⟨b, husv, hWb, -⟩ := wf_update_student_view fm a
      hW.nodupKeys hW.emailEq hW.orderPerm hW.cursorLe hW.snapKey
    refine ⟨b, ?_, hWb⟩
    rw [delete_char, if_neg hci]
    exact husv

theorem wf_input_clear (fm : Matcher) {a : App} (hW : Wf a) :
    ∃ b, input_clear fm a = some b ∧ Wf b := by
  obtain ⟨b, husv, hWb, -⟩ := wf_update_student_view fm
    { a with input := "", character_index := 0 }
    hW.nodupKeys hW.emailEq hW.orderPerm (Nat.zero_le _) hW.snapKey
  exact ⟨b, husv, hWb⟩

/-! ### Registry load invariants -/

theorem replace_map_fst (m : List (StudentKey × Student)) (k : StudentKey) (s : Student) :
    (m.map (fun p => if p.1 = k then (k, s) else p)).map Prod.fst = m.map Prod.fst := by
  induction m with
  | nil => rfl
  | cons p ps ih =>
    simp only [List.map_cons, List.cons.injEq]
    refine ⟨?_, ih⟩
    by_cases hp : p.1 = k
    · rw [if_pos hp, hp]
    · rw [if_neg hp]

theorem insertStudent_map_fst_of_mem {m : List (StudentKey × Student)} {k : StudentKey}
    {s : Student} (h : k ∈ m.map Prod.fst) :
    (insertStudent m k s).map Prod.fst = m.map Prod.fst := by
  rw [insertStudent, if_pos h]
  exact replace_map_fst m k s

theorem insertStudent_nodup {m : List (StudentKey × Student)} {k : StudentKey} {s : Student}
    (hnd : (m.map Prod.fst).Nodup) : ((insertStudent m k s).map Prod.fst).Nodup := by
  by_cases h : k ∈ m.map Prod.fst
  · rw [insertStudent_map_fst_of_mem h]
    exact hnd
  · rw [insertStudent, if_neg h, List.map_append]
    simp only [List.map_cons, List.map_nil]
    rw [List.nodup_append]
    refine ⟨hnd, List.nodup_singleton _, ?_⟩
    intro x hx hxk
    simp only [List.mem_singleton] at hxk
    exact h (hxk ▸ hx)

theorem insertStudent_emailEq {m : List (StudentKey × Student)} {k : StudentKey} {s : Student}
    (hem : ∀ p ∈ m, p.2.email = p.1) (hs : s.email = k) :
    ∀ p ∈ insertStudent m k s, p.2.email = p.1 := by
  intro p hp
  rw [insertStudent] at hp
  by_cases h : k ∈ m.map Prod.fst
  · rw [if_pos h] at hp
    obtain ⟨q, hq, hpq⟩ := List.mem_map.mp hp
    by_cases h2 : q.1 = k
    · rw [if_pos h2] at hpq
      rw [← hpq]
      exact hs
    · rw [if_neg h2] at hpq
      rw [← hpq]
      exact hem q hq
  · rw [if_neg h] at hp
    rcases List.mem_append.mp hp with h2 | h2
    · exact hem p h2
    · have : p = (k, s) := by simpa using h2
      rw [this]
      exact hs

theorem foldl_insert_invariant (rows : List Student) (acc : List (StudentKey × Student))
    (hnd : (acc.map Prod.fst).Nodup) (hem : ∀ p ∈ acc, p.2.email = p.1) :
    ((rows.foldl
        (fun m s =>
          insertStudent m (trimStr s.email)
            { name := trimStr s.name
              email := trimStr s.email
              participation_score := s.participation_score
              deferrals := s.deferrals
              absent := s.absent
              answered_today := 0
              color := 0 }) acc).map Prod.fst).Nodup ∧
      ∀ p ∈ rows.foldl
        (fun m s =>
          insertStudent m (trimStr s.email)
            { name := trimStr s.name
              email := trimStr s.email
              participation_score := s.participation_score
              deferrals := s.deferrals
              absent := s.absent
              answered_today := 0
              color := 0 }) acc, p.2.email = p.1 := by
  induction rows generalizing acc with
  | nil => exact ⟨hnd, hem⟩
  | cons r rs ih =>
    simp only [List.foldl_cons]
    exact ih _ (insertStudent_nodup hnd) (insertStudent_emailEq hem rfl)

theorem deserialize_rows_invariant (rows : List Student) :
    ((deserialize_rows rows).map Prod.fst).Nodup ∧
      ∀ p ∈ deserialize_rows rows, p.2.email = p.1 :=
  foldl_insert_invariant rows [] List.nodup_nil (by simp)

theorem App_new_spec (fm : Matcher) (sh : Shuffler) (rows : List Student)
    (hsh : ∀ l, (sh l).Perm l) :
    ∃ b, App.new fm sh rows = some b ∧ Wf b := by
  obtain ⟨hnd, hem⟩ := deserialize_rows_invariant rows
  obtain ⟨b, hb, hWb, -⟩ := wf_randomize fm sh
    { input := ""
      character_index := 0
      display_mode := DisplayMode.Command
      student_display := none
      students := deserialize_rows rows
      order := []
      view := []
      selection := none } hnd hem (Nat.zero_le _) (fun s hs => Option.noConfusion hs) hsh
  exact ⟨b, hb, hWb⟩

/-! ### Outcome recording -/

theorem lookupS_applyColors (m : List (StudentKey × Student)) (mn norm : Nat)
    (k : StudentKey) :
    lookupS (applyColors m mn norm) k =
      (lookupS m k).map
        (fun t => { t with color := colorOf t.participation_score mn norm }) := by
  induction m with
  | nil => rfl
  | cons p ps ih =>
    have hstep : applyColors (p :: ps) mn norm =
        (p.1, { p.2 with color := colorOf p.2.participation_score mn norm }) ::
          applyColors ps mn norm := rfl
    rw [hstep]
    by_cases hp : p.1 = k
    · simp [lookupS, hp]
    · simp [lookupS, hp, ih]

theorem student_escape_students (a : App) : (student_escape a).students = a.students := rfl

theorem student_escape_order (a : App) : (student_escape a).order = a.order := rfl

theorem student_escape_view (a : App) : (student_escape a).view = a.view := rfl

theorem student_escape_selection (a : App) : (student_escape a).selection = a.selection := rfl

theorem student_escape_input (a : App) : (student_escape a).input = a.input := rfl

theorem student_escape_display_mode (a : App) :
    (student_escape a).display_mode = a.display_mode := rfl

theorem student_escape_student_display (a : App) :
    (student_escape a).student_display = none := rfl

theorem student_answer_spec (fm : Matcher) (sh : Shuffler) (a : App) (snap : Student)
    (hnd : (a.students.map Prod.fst).Nodup)
    (hem : ∀ p ∈ a.students, p.2.email = p.1)
    (hcur : a.character_index ≤ a.input.length)
    (hd : a.student_display = some snap)
    (hkey : snap.email ∈ a.students.map Prod.fst)
    (hsh : ∀ l, (sh l).Perm l) :
    ∃ b s s2, student_answer fm sh a = some b ∧ Wf b ∧
      lookupS a.students snap.email = some s ∧
      lookupS b.students snap.email = some s2 ∧
      s2.participation_score = s.participation_score + 1 ∧
      s2.answered_today = s.answered_today + 1 ∧
      s2.deferrals = s.deferrals ∧ s2.absent = s.absent ∧
      (∀ k, k ≠ snap.email →
        (lookupS b.students k).map
            (fun t => (t.participation_score, t.deferrals, t.absent, t.answered_today)) =
          (lookupS a.students k).map
            (fun t => (t.participation_score, t.deferrals, t.absent, t.answered_today))) ∧
      b.student_display = none ∧ b.display_mode = a.display_mode ∧
      b.order.Perm (b.students.map Prod.fst) := by
  obtain ⟨s, hs⟩ := lookupS_isSome_of_mem_keys hkey
  have hnd1 : ((updateS a.students snap.email bumpStudent).map Prod.fst).Nodup := by
    rw [updateS_map_fst]
    exact hnd
  have hem1 : ∀ p ∈ updateS a.students snap.email bumpStudent, p.2.email = p.1 :=
    emailEq_updateS (fun t => rfl) hem
  obtain ⟨b0, hb0, hWb0, hb0sd, hb0dm, hb0in, hb0keys, hb0students⟩ :=
    wf_randomize fm sh
      { a with students := updateS a.students snap.email bumpStudent }
      hnd1 hem1 hcur
      (by
        intro t ht
        have h2 : a.student_display = some t := ht
        rw [hd] at h2
        have h3 : snap = t := Option.some.inj h2
        rw [updateS_map_fst]
        exact h3 ▸ hkey)
      hsh
  have hb0s2 : b0.students =
      applyColors (updateS a.students snap.email bumpStudent)
        (minScore (updateS a.students snap.email bumpStudent))
        (wsub (maxScore (updateS a.students snap.email bumpStudent))
          (minScore (updateS a.students snap.email bumpStudent))) := hb0students
  refine ⟨student_escape b0, s,
    { s with
      participation_score := s.participation_score + 1
      answered_today := s.answered_today + 1
      color := colorOf (s.participation_score + 1)
        (minScore (updateS a.students snap.email bumpStudent))
        (wsub (maxScore (updateS a.students snap.email bumpStudent))
          (minScore (updateS a.students snap.email bumpStudent))) },
    ?_, wf_student_escape hWb0, hs, ?_, rfl, rfl, rfl, rfl, ?_, rfl, ?_, ?_⟩
  · simp only [student_answer, hd, hs]
    rw [hd] at hb0
    show (update_data fm sh
        { a with
          student_display := some snap
          students := updateS a.students snap.email bumpStudent }).map
        student_escape = some (student_escape b0)
    rw [update_data, hb0]
    rfl
  · rw [student_escape_students, hb0s2, lookupS_applyColors, lookupS_updateS, if_pos rfl, hs]
    rfl
  · intro k hk
    rw [student_escape_students, hb0s2, lookupS_applyColors, lookupS_updateS, if_neg hk]
    cases lookupS a.students k <;> rfl
  · rw [student_escape_display_mode]
    exact hb0dm
  · rw [student_escape_order, student_escape_students]
    exact hWb0.orderPerm

/-! ### The event loop preserves the invariant and never panics -/

theorem input_mode_student {a : App} (h : input_mode a = InputMode.Student) :
    ∃ snap, a.student_display = some snap := by
  rw [input_mode] at h
  by_cases hd : a.student_display.isSome
  · exact Option.isSome_iff_exists.mp hd
  · rw [if_neg hd] at h
    cases hdm : a.display_mode <;> rw [hdm] at h <;> simp at h

theorem step_spec (fm : Matcher) (sh : Shuffler) (c : Cmd) (a : App) (hW : Wf a)
    (hsh : ∀ l, (sh l).Perm l) :
    ∃ b, step fm sh c a = some b ∧ Wf b := by
  delta step
  cases hmode : input_mode a with
  | Command =>
    cases c with
    | beginSearch => exact ⟨_, rfl, wf_set_display_mode hW _⟩
    | reshuffle =>
      obtain ⟨b, hb, hWb, -⟩ :=
        wf_randomize fm sh a hW.nodupKeys hW.emailEq hW.cursorLe hW.snapKey hsh
      exact ⟨b, hb, hWb⟩
    | navUp => exact ⟨_, rfl, wf_move_selection_up hW⟩
    | navDown => exact move_selection_down_spec hW
    | confirm =>
      obtain ⟨b, hb, hWb, -⟩ := display_selected_student_spec hW
      exact ⟨b, hb, hWb⟩
    | escape => exact ⟨a, rfl, hW⟩
    | insertChar ch => exact ⟨a, rfl, hW⟩
    | backspace => exact ⟨a, rfl, hW⟩
    | cursorLeft => exact ⟨a, rfl, hW⟩
    | cursorRight => exact ⟨a, rfl, hW⟩
    | answer => exact ⟨a, rfl, hW⟩
    | absent => exact ⟨a, rfl, hW⟩
    | deferStudent => exact ⟨a, rfl, hW⟩
    | other => exact ⟨a, rfl, hW⟩
  | Searching =>
    cases c with
    | confirm =>
      obtain ⟨b, hb, hWb, -⟩ := display_selected_student_spec hW
      exact ⟨b, hb, hWb⟩
    | navUp => exact ⟨_, rfl, wf_move_selection_up hW⟩
    | navDown => exact move_selection_down_spec hW
    | insertChar ch =>
      obtain ⟨b, hb, hWb, -⟩ := wf_enter_char fm ch hW
      exact ⟨b, hb, hWb⟩
    | backspace => exact wf_delete_char fm hW
    | cursorLeft => exact ⟨_, rfl, wf_move_cursor_left hW⟩
    | cursorRight => exact ⟨_, rfl, wf_move_cursor_right hW⟩
    | escape => exact wf_input_clear fm (wf_set_display_mode hW DisplayMode.Command)
    | beginSearch => exact ⟨a, rfl, hW⟩
    | reshuffle => exact ⟨a, rfl, hW⟩
    | answer => exact ⟨a, rfl, hW⟩
    | absent => exact ⟨a, rfl, hW⟩
    | deferStudent => exact ⟨a, rfl, hW⟩
    | other => exact ⟨a, rfl, hW⟩
  | Student =>
    cases c with
    | deferStudent => exact ⟨_, rfl, wf_student_escape hW⟩
    | absent => exact ⟨_, rfl, wf_student_escape hW⟩
    | escape => exact ⟨_, rfl, wf_student_escape hW⟩
    | answer =>
      obtain ⟨snap, hd⟩ := input_mode_student hmode
      obtain ⟨b, s, s2, hb, hWb, -⟩ :=
        student_answer_spec fm sh a snap hW.nodupKeys hW.emailEq hW.cursorLe hd
          (hW.snapKey snap hd) hsh
      exact ⟨b, hb, hWb⟩
    | beginSearch => exact ⟨a, rfl, hW⟩
    | reshuffle => exact ⟨a, rfl, hW⟩
    | navUp => exact ⟨a, rfl, hW⟩
    | navDown => exact ⟨a, rfl, hW⟩
    | confirm => exact ⟨a, rfl, hW⟩
    | insertChar ch => exact ⟨a, rfl, hW⟩
    | backspace => exact ⟨a, rfl, hW⟩
    | cursorLeft => exact ⟨a, rfl, hW⟩
    | cursorRight => exact ⟨a, rfl, hW⟩
    | other => exact ⟨a, rfl, hW⟩

theorem wf_reachable {fm : Matcher} {a : App} (h : Reachable fm a) : Wf a := by
  induction h with
  | init rows sh hsh a hnew =>
    obtain ⟨b, hb, hWb⟩ := App_new_spec fm sh rows hsh
    rw [hnew] at hb
    have : a = b := by simpa using hb
    rw [this]
    exact hWb
  | next sh hsh c a b hr hstep ih =>
    obtain ⟨b2, hb2, hWb2⟩ := step_spec fm sh c a ih hsh
    rw [hstep] at hb2
    have : b = b2 := by simpa using hb2
    rw [this]
    exact hWb2

/-! ### Stable-sort lemmas for the fuzzy ranking -/

theorem sortScoreDesc_perm (l : List (Student × Int)) : (sortScoreDesc l).Perm l :=
  List.perm_insertionSort byScoreDesc l

theorem sortScoreDesc_pairwise (l : List (Student × Int)) :
    (sortScoreDesc l).Pairwise byScoreDesc :=
  List.sorted_insertionSort byScoreDesc l

theorem filter_orderedInsert (x : Student × Int) (l : List (Student × Int)) (v : Int) :
    (List.orderedInsert byScoreDesc x l).filter (fun q => decide (q.2 = v)) =
      if x.2 = v then x :: l.filter (fun q => decide (q.2 = v))
      else l.filter (fun q => decide (q.2 = v)) := by
  induction l with
  | nil =>
    by_cases hv : x.2 = v <;> simp [List.orderedInsert, hv]
  | cons b t ih =>
    rw [List.orderedInsert]
    by_cases hr : byScoreDesc x b
    · rw [if_pos hr]
      by_cases hv : x.2 = v <;> simp [List.filter_cons, hv]
    · rw [if_neg hr]
      by_cases hv : x.2 = v
      · have hbv : ¬ (b.2 = v) := by
          rw [byScoreDesc] at hr
          intro hb
          exact hr (by rw [hb, hv])
        simp [List.filter_cons, hbv, ih, hv]
      · by_cases hbv : b.2 = v <;> simp [List.filter_cons, hbv, ih, hv]

theorem filter_sortScoreDesc (l : List (Student × Int)) (v : Int) :
    (sortScoreDesc l).filter (fun q => decide (q.2 = v)) =
      l.filter (fun q => decide (q.2 = v)) := by
  induction l with
  | nil => rfl
  | cons x t ih =>
    have ih2 : (List.insertionSort byScoreDesc t).filter (fun q => decide (q.2 = v)) =
        t.filter (fun q => decide (q.2 = v)) := ih
    rw [sortScoreDesc, List.insertionSort, filter_orderedInsert]
    by_cases hv : x.2 = v <;> simp [List.filter_cons, hv, ih2]

theorem mem_matchedOf_iff {fm : Matcher} {m : List (StudentKey × Student)} {query : String}
    {q : Student × Int} :
    q ∈ matchedOf fm m query ↔
      ∃ p ∈ m, fm p.2.name.toLower query.toLower = some q.2 ∧ q.1 = p.2 := by
  rw [matchedOf, List.mem_filterMap]
  constructor
  · rintro ⟨p, hp, hf⟩
    obtain ⟨sc, hsc, hq2⟩ := Option.map_eq_some'.mp hf
    refine ⟨p, hp, ?_, by rw [← hq2]⟩
    rw [hsc, ← hq2]
  · rintro ⟨p, hp, hf, hq1⟩
    refine ⟨p, hp, ?_⟩
    rw [hf, Option.map_some']
    obtain ⟨q1, q2⟩ := q
    simp only at hq1 ⊢
    rw [hq1]

/-! ### Byte-boundary corollaries -/

theorem byte_index_isCharBoundary (s : String) (k : Nat) :
    IsCharBoundary s (byte_index s k) :=
  ⟨s.data.take k, s.data.drop k, (List.take_append_drop k s.data).symm, rfl⟩

/-! ### Evaluation of the fixtures -/

theorem new0 : App.new f0 id rows0 = some a0 := by decide

theorem reach0 : Reachable f0 a0 :=
  Reachable.init rows0 id (fun l => List.Perm.refl l) a0 new0

/-! ### The claims -/

/-- C1: After every regeneration of the weighted order (`randomize` is the
regeneration routine run at process start, on the reshuffle command, and
after an outcome is recorded), the resulting Order is a permutation of the
registry keys — every key occurring exactly once, with the length of the
order equal to the registry size — and for the empty registry the resulting
order is empty. -/
theorem c1_randomize_order_permutation (fm : Matcher) (sh : Shuffler) (a : App)
    (hnd : (a.students.map Prod.fst).Nodup)
    (hem : ∀ p ∈ a.students, p.2.email = p.1)
    (hsh : ∀ l, (sh l).Perm l) :
    ∃ b, randomize fm sh a = some b ∧
      b.order.Perm (b.students.map Prod.fst) ∧
      b.order.Perm (a.students.map Prod.fst) ∧
      b.order.Nodup ∧
      b.order.length = a.students.length ∧
      (a.students = [] → b.order = []) := by
  obtain ⟨b, hb, hbs, hbord, -, -, -, -, -, -⟩ := randomize_spec fm sh a hnd hem hsh
  have hkeys : b.students.map Prod.fst = a.students.map Prod.fst := by
    rw [hbs, applyColors_map_fst]
  refine ⟨b, hb, by rw [hkeys]; exact hbord, hbord, hbord.nodup_iff.mpr hnd, ?_, ?_⟩
  · rw [hbord.length_eq, List.length_map]
  · intro hempty
    have hk : a.students.map Prod.fst = [] := by rw [hempty]; rfl
    rw [hk] at hbord
    exact List.perm_nil.mp hbord

theorem c1_witness :
    ∃ b, randomize f0 id a0 = some b ∧
      b.order.Perm (b.students.map Prod.fst) ∧
      b.order.Perm (a0.students.map Prod.fst) ∧
      b.order.Nodup ∧
      b.order.length = a0.students.length ∧
      (a0.students = [] → b.order = []) :=
  c1_randomize_order_permutation f0 id a0 (by decide) (by decide)
    (fun l => List.Perm.refl l)

/-- C2: In the weighted order generator, with range = max - min score over
the registry (the fold extremes coincide with the true extremes for any
nonempty registry of usize scores), every student with score s contributes
exactly `range - (s - min) + 1` tickets to the bag; minimum-score students
contribute `range + 1`, maximum-score students contribute exactly 1, and
when all scores are equal every student contributes exactly 1. -/
theorem c2_ticket_counts (students : List (StudentKey × Student))
    (hne : students ≠ [])
    (hnd : (students.map Prod.fst).Nodup)
    (hem : ∀ p ∈ students, p.2.email = p.1)
    (hb : ∀ p ∈ students, p.2.participation_score ≤ USIZE_MAX) :
    (∀ p ∈ students, minScore students ≤ p.2.participation_score ∧
      p.2.participation_score ≤ maxScore students) ∧
    (∃ p ∈ students, minScore students = p.2.participation_score) ∧
    (∃ p ∈ students, maxScore students = p.2.participation_score) ∧
    (∀ p ∈ students,
      (bagOf students (wsub (maxScore students) (minScore students))
        (minScore students)).count p.1 =
      maxScore students - minScore students -
        (p.2.participation_score - minScore students) + 1) ∧
    (∀ p ∈ students, p.2.participation_score = minScore students →
      (bagOf students (wsub (maxScore students) (minScore students))
        (minScore students)).count p.1 =
      maxScore students - minScore students + 1) ∧
    (∀ p ∈ students, p.2.participation_score = maxScore students →
      (bagOf students (wsub (maxScore students) (minScore students))
        (minScore students)).count p.1 = 1) ∧
    ((∀ p ∈ students, ∀ q ∈ students,
        p.2.participation_score = q.2.participation_score) →
      ∀ p ∈ students,
        (bagOf students (wsub (maxScore students) (minScore students))
          (minScore students)).count p.1 = 1) := by
  obtain ⟨pm, hpm, hpmv⟩ := minScore_attained hne hb
  obtain ⟨pM, hpM, hpMv⟩ := maxScore_attained hne
  have hmnmx : minScore students ≤ maxScore students := by
    rw [hpmv]
    exact le_maxScore hpm
  have hwsub : wsub (maxScore students) (minScore students) =
      maxScore students - minScore students := by
    rw [wsub, if_pos hmnmx]
  have hcount : ∀ p ∈ students,
      (bagOf students (wsub (maxScore students) (minScore students))
        (minScore students)).count p.1 =
      maxScore students - minScore students -
        (p.2.participation_score - minScore students) + 1 := by
    intro p hp
    have hp2 : (p.1, p.2) ∈ students := by simpa using hp
    rw [count_bagOf hp2 hnd hem, hwsub]
  refine ⟨fun p hp => ⟨minScore_le hp, le_maxScore hp⟩, ⟨pm, hpm, hpmv⟩, ⟨pM, hpM, hpMv⟩,
    hcount, ?_, ?_, ?_⟩
  · intro p hp hmin
    rw [hcount p hp, hmin, Nat.sub_self, Nat.sub_zero]
  · intro p hp hmax
    rw [hcount p hp, hmax, Nat.sub_self]
  · intro hall p hp
    have h1 : p.2.participation_score = minScore students := by
      rw [hpmv]
      exact hall p hp pm hpm
    have h2 : minScore students = maxScore students := by
      rw [hpmv, hpMv]
      exact hall pm hpm pM hpM
    rw [hcount p hp, h1, Nat.sub_self, Nat.sub_zero, ← h2, Nat.sub_self]

theorem c2_witness :
    (∀ p ∈ students2, minScore students2 ≤ p.2.participation_score ∧
      p.2.participation_score ≤ maxScore students2) ∧
    (∃ p ∈ students2, minScore students2 = p.2.participation_score) ∧
    (∃ p ∈ students2, maxScore students2 = p.2.participation_score) ∧
    (∀ p ∈ students2,
      (bagOf students2 (wsub (maxScore students2) (minScore students2))
        (minScore students2)).count p.1 =
      maxScore students2 - minScore students2 -
        (p.2.participation_score - minScore students2) + 1) ∧
    (∀ p ∈ students2, p.2.participation_score = minScore students2 →
      (bagOf students2 (wsub (maxScore students2) (minScore students2))
        (minScore students2)).count p.1 =
      maxScore students2 - minScore students2 + 1) ∧
    (∀ p ∈ students2, p.2.participation_score = maxScore students2 →
      (bagOf students2 (wsub (maxScore students2) (minScore students2))
        (minScore students2)).count p.1 = 1) ∧
    ((∀ p ∈ students2, ∀ q ∈ students2,
        p.2.participation_score = q.2.participation_score) →
      ∀ p ∈ students2,
        (bagOf students2 (wsub (maxScore students2) (minScore students2))
          (minScore students2)).count p.1 = 1) :=
  c2_ticket_counts students2 (by decide) (by decide) (by decide) (by decide)

/-- C3: In Student mode with a snapshot whose key exists in the registry,
student_answer increments exactly that student's participation score and
answered-today counters by one, leaves every other student's participation
score, deferrals, absences and answered-today unchanged, regenerates the
order (again a permutation of the registry keys), clears the snapshot, and
control returns to the mode that was active before entering Student mode
(the preserved display mode). -/
theorem c3_student_answer_effect (fm : Matcher) (sh : Shuffler) (a : App) (snap : Student)
    (hnd : (a.students.map Prod.fst).Nodup)
    (hem : ∀ p ∈ a.students, p.2.email = p.1)
    (hcur : a.character_index ≤ a.input.length)
    (hd : a.student_display = some snap)
    (hkey : snap.email ∈ a.students.map Prod.fst)
    (hsh : ∀ l, (sh l).Perm l) :
    ∃ b s s2, student_answer fm sh a = some b ∧
      lookupS a.students snap.email = some s ∧
      lookupS b.students snap.email = some s2 ∧
      s2.participation_score = s.participation_score + 1 ∧
      s2.answered_today = s.answered_today + 1 ∧
      s2.deferrals = s.deferrals ∧ s2.absent = s.absent ∧
      (∀ k, k ≠ snap.email →
        (lookupS b.students k).map
            (fun t => (t.participation_score, t.deferrals, t.absent, t.answered_today)) =
          (lookupS a.students k).map
            (fun t => (t.participation_score, t.deferrals, t.absent, t.answered_today))) ∧
      b.student_display = none ∧
      b.display_mode = a.display_mode ∧
      input_mode b = input_mode (student_escape a) ∧
      b.order.Perm (b.students.map Prod.fst) := by
  obtain ⟨b, s, s2, hb, hWb, hsa, hsb, h1, h2, h3, h4, hframe, hnone, hdm, hperm⟩ :=
    student_answer_spec fm sh a snap hnd hem hcur hd hkey hsh
  refine ⟨b, s, s2, hb, hsa, hsb, h1, h2, h3, h4, hframe, hnone, hdm, ?_, hperm⟩
  rw [input_mode, input_mode, hnone, student_escape_student_display,
    student_escape_display_mode, hdm]

theorem c3_witness :
    ∃ b s s2, student_answer f0 id a3 = some b ∧
      lookupS a3.students s0.email = some s ∧
      lookupS b.students s0.email = some s2 ∧
      s2.participation_score = s.participation_score + 1 ∧
      s2.answered_today = s.answered_today + 1 ∧
      s2.deferrals = s.deferrals ∧ s2.absent = s.absent ∧
      (∀ k, k ≠ s0.email →
        (lookupS b.students k).map
            (fun t => (t.participation_score, t.deferrals, t.absent, t.answered_today)) =
          (lookupS a3.students k).map
            (fun t => (t.participation_score, t.deferrals, t.absent, t.answered_today))) ∧
      b.student_display = none ∧
      b.display_mode = a3.display_mode ∧
      input_mode b = input_mode (student_escape a3) ∧
      b.order.Perm (b.students.map Prod.fst) :=
  c3_student_answer_effect f0 id a3 s0 (by decide) (by decide) (by decide) rfl
    (by decide) (fun l => List.Perm.refl l)

/-- C4: In every reachable state the selection clamp invariant holds —
Selection is none exactly when the View is empty, and otherwise a valid
index below the view length — and move_selection_up and move_selection_down
preserve it. -/
theorem c4_selection_clamp (fm : Matcher) (a : App) (h : Reachable fm a) :
    SelClamp a ∧ SelClamp (move_selection_up a) ∧
      (∀ b, move_selection_down a = some b → SelClamp b) := by
  have hW := wf_reachable h
  refine ⟨⟨hW.selNone, hW.selLt⟩, ?_, ?_⟩
  · have hW2 := wf_move_selection_up hW
    exact ⟨hW2.selNone, hW2.selLt⟩
  · intro b hb
    obtain ⟨b2, hb2, hW2⟩ := move_selection_down_spec hW
    rw [hb] at hb2
    have heq : b = b2 := by simpa using hb2
    rw [heq]
    exact ⟨hW2.selNone, hW2.selLt⟩

theorem c4_witness :
    SelClamp a0 ∧ SelClamp (move_selection_up a0) ∧
      (∀ b, move_selection_down a0 = some b → SelClamp b) :=
  c4_selection_clamp f0 a0 reach0

/-- C5: On every reachable state, every operator command is total — every
dispatch step succeeds, selected_student never panics (its assertion,
indexing and registry lookup all succeed), the selection index is always in
bounds of the view, the subtraction `view.len() - 1` in move_selection_down
never underflows, and in Student mode the registry lookup inside
student_answer always succeeds. -/
theorem c5_operations_total (fm : Matcher) (sh : Shuffler) (a : App)
    (h : Reachable fm a) (hsh : ∀ l, (sh l).Perm l) :
    (∀ c, ∃ b, step fm sh c a = some b) ∧
    (∃ os, selected_student a = some os) ∧
    (∀ i, a.selection = some i → i < a.view.length) ∧
    (∃ b, move_selection_down a = some b) ∧
    (input_mode a = InputMode.Student → ∃ b, student_answer fm sh a = some b) := by
  have hW := wf_reachable h
  refine ⟨fun c => ?_, ?_, hW.selLt, ?_, ?_⟩
  · obtain ⟨b, hb, -⟩ := step_spec fm sh c a hW hsh
    exact ⟨b, hb⟩
  · obtain ⟨os, hos, -⟩ := selected_student_spec hW
    exact ⟨os, hos⟩
  · obtain ⟨b, hb, -⟩ := move_selection_down_spec hW
    exact ⟨b, hb⟩
  · intro hmode
    obtain ⟨snap, hd⟩ := input_mode_student hmode
    obtain ⟨b, s, s2, hb, -⟩ := student_answer_spec fm sh a snap hW.nodupKeys hW.emailEq
      hW.cursorLe hd (hW.snapKey snap hd) hsh
    exact ⟨b, hb⟩

theorem c5_witness :
    (∀ c, ∃ b, step f0 id c a0 = some b) ∧
    (∃ os, selected_student a0 = some os) ∧
    (∀ i, a0.selection = some i → i < a0.view.length) ∧
    (∃ b, move_selection_down a0 = some b) ∧
    (input_mode a0 = InputMode.Student → ∃ b, student_answer f0 id a0 = some b) :=
  c5_operations_total f0 id a0 reach0 (fun l => List.Perm.refl l)

/-- C6: Whenever the query string is empty, update_student_view succeeds
and makes the View equal to the Order, element for element, in the same
sequence (the Order itself is unchanged). -/
theorem c6_empty_query_view_eq_order (fm : Matcher) (a : App)
    (hem : ∀ p ∈ a.students, p.2.email = p.1)
    (hord : ∀ k ∈ a.order, k ∈ a.students.map Prod.fst)
    (hq : a.input = "") :
    ∃ b, update_student_view fm a = some b ∧ b.view = a.order ∧ b.order = a.order := by
  obtain ⟨v, husv, -, hvord⟩ := update_student_view_spec fm a hem hord
  refine ⟨_, husv, ?_, by simp⟩
  simp [hvord hq]

theorem c6_witness :
    ∃ b, update_student_view f0 a0 = some b ∧ b.view = a0.order ∧ b.order = a0.order :=
  c6_empty_query_view_eq_order f0 a0 (by decide) (by decide) rfl

/-- C7: When the query string is non-empty, update_student_view builds the
View as exactly the keys of the students whose lowercased display name has
a fuzzy match against the lowercased query (students with no match are
excluded), ordered by descending match score via the stable sort of the
matched list — so ties keep the registry iteration order, shown by the
filter-stability equation. -/
theorem c7_fuzzy_filter_rank (fm : Matcher) (a : App)
    (hne : a.input.length ≠ 0)
    (hem : ∀ p ∈ a.students, p.2.email = p.1) :
    ∃ b, update_student_view fm a = some b ∧
      b.view = (sortScoreDesc (matchedOf fm a.students a.input)).map (fun q => q.1.email) ∧
      (∀ k, k ∈ b.view ↔ ∃ p ∈ a.students, p.1 = k ∧
        (fm p.2.name.toLower a.input.toLower).isSome) ∧
      (sortScoreDesc (matchedOf fm a.students a.input)).Pairwise byScoreDesc ∧
      (∀ v : Int,
        (sortScoreDesc (matchedOf fm a.students a.input)).filter
            (fun q => decide (q.2 = v)) =
          (matchedOf fm a.students a.input).filter (fun q => decide (q.2 = v))) := by
  refine ⟨selection_reset
    { a with
      view := (sortScoreDesc (matchedOf fm a.students a.input)).map
        (fun q => q.1.email) }, ?_, by simp, ?_,
    sortScoreDesc_pairwise _, fun v => filter_sortScoreDesc _ v⟩
  · rw [update_student_view, if_pos hne, Option.map_some']
  · intro k
    simp only [selection_reset_view]
    show k ∈ (sortScoreDesc (matchedOf fm a.students a.input)).map (fun q => q.1.email) ↔ _
    constructor
    · intro hk
      obtain ⟨q, hq, hqe⟩ := List.mem_map.mp hk
      have hqM : q ∈ matchedOf fm a.students a.input :=
        (sortScoreDesc_perm _).mem_iff.mp hq
      obtain ⟨p, hp, hf, hq1⟩ := mem_matchedOf_iff.mp hqM
      refine ⟨p, hp, ?_, ?_⟩
      · rw [← hqe, hq1]
        exact (hem p hp).symm
      · rw [hf]
        rfl
    · rintro ⟨p, hp, hpk, hsome⟩
      obtain ⟨sc, hsc⟩ := Option.isSome_iff_exists.mp hsome
      have hqM : (p.2, sc) ∈ matchedOf fm a.students a.input :=
        mem_matchedOf_iff.mpr ⟨p, hp, hsc, rfl⟩
      have hmem : (p.2, sc) ∈ sortScoreDesc (matchedOf fm a.students a.input) :=
        (sortScoreDesc_perm _).mem_iff.mpr hqM
      exact List.mem_map.mpr ⟨(p.2, sc), hmem, (hem p hp).trans hpk⟩

theorem c7_witness :
    ∃ b, update_student_view f1 a7 = some b ∧
      b.view = (sortScoreDesc (matchedOf f1 a7.students a7.input)).map
        (fun q => q.1.email) ∧
      (∀ k, k ∈ b.view ↔ ∃ p ∈ a7.students, p.1 = k ∧
        (f1 p.2.name.toLower a7.input.toLower).isSome) ∧
      (sortScoreDesc (matchedOf f1 a7.students a7.input)).Pairwise byScoreDesc ∧
      (∀ v : Int,
        (sortScoreDesc (matchedOf f1 a7.students a7.input)).filter
            (fun q => decide (q.2 = v)) =
          (matchedOf f1 a7.students a7.input).filter (fun q => decide (q.2 = v))) :=
  c7_fuzzy_filter_rank f1 a7 (by decide) (by decide)

/-- C8: student_absent and student_defer only discard the Student-mode
snapshot and return control to the prior mode: both equal the state with
the snapshot cleared, so the registry, order, view, selection, query,
cursor and display mode are all unchanged and no counter of any student
changes. -/
theorem c8_absent_defer_noop (a : App) :
    student_absent a = { a with student_display := none } ∧
    student_defer a = { a with student_display := none } ∧
    (student_absent a).students = a.students ∧
    (student_absent a).order = a.order ∧
    (student_absent a).view = a.view ∧
    (student_absent a).selection = a.selection ∧
    (student_absent a).input = a.input ∧
    (student_absent a).character_index = a.character_index ∧
    (student_absent a).display_mode = a.display_mode ∧
    (student_absent a).student_display = none ∧
    (student_defer a).students = a.students ∧
    (student_defer a).order = a.order ∧
    (student_defer a).view = a.view ∧
    (student_defer a).selection = a.selection ∧
    (student_defer a).input = a.input ∧
    (student_defer a).character_index = a.character_index ∧
    (student_defer a).display_mode = a.display_mode ∧
    (student_defer a).student_display = none :=
  ⟨rfl, rfl, rfl, rfl, rfl, rfl, rfl, rfl, rfl, rfl, rfl, rfl, rfl, rfl, rfl, rfl,
    rfl, rfl⟩

/-- C9: In every reachable state the cursor lies between 0 and the number
of characters of the query, the cursor moves keep it there, byte_index
always returns a character boundary of the query (or its total byte
length) — for every character position, not just the current one — and the
byte-level insertion of enter_char lands exactly between characters, never
splitting a multi-byte character. -/
theorem c9_cursor_char_boundary (fm : Matcher) (a : App) (h : Reachable fm a) :
    a.character_index ≤ a.input.length ∧
    (move_cursor_left a).character_index ≤ (move_cursor_left a).input.length ∧
    (move_cursor_right a).character_index ≤ (move_cursor_right a).input.length ∧
    IsCharBoundary a.input (byte_index a.input a.character_index) ∧
    (∀ k, IsCharBoundary a.input (byte_index a.input k)) ∧
    (∀ ch : Char,
      insertAtByte a.input (byte_index a.input a.character_index) ch =
        some (String.mk (a.input.data.take a.character_index ++
          ch :: a.input.data.drop a.character_index))) := by
  have hW := wf_reachable h
  exact ⟨hW.cursorLe, Nat.min_le_right _ _, Nat.min_le_right _ _,
    byte_index_isCharBoundary _ _, fun k => byte_index_isCharBoundary _ _,
    fun ch => insertAtByte_byte_index _ _ ch⟩

theorem c9_witness :
    a0.character_index ≤ a0.input.length ∧
    (move_cursor_left a0).character_index ≤ (move_cursor_left a0).input.length ∧
    (move_cursor_right a0).character_index ≤ (move_cursor_right a0).input.length ∧
    IsCharBoundary a0.input (byte_index a0.input a0.character_index) ∧
    (∀ k, IsCharBoundary a0.input (byte_index a0.input k)) ∧
    (∀ ch : Char,
      insertAtByte a0.input (byte_index a0.input a0.character_index) ch =
        some (String.mk (a0.input.data.take a0.character_index ++
          ch :: a0.input.data.drop a0.character_index))) :=
  c9_cursor_char_boundary f0 a0 reach0

/-- C10: The load inserts each student under its own trimmed email, and in
every reachable state every registry entry stores a student whose email
field equals its key; consequently every key in the Order and in the View
is a registry key. -/
theorem c10_registry_key_email (fm : Matcher) :
    (∀ rows : List Student, ∀ p ∈ deserialize_rows rows, p.2.email = p.1) ∧
    (∀ a : App, Reachable fm a →
      (∀ p ∈ a.students, p.2.email = p.1) ∧
      (∀ k ∈ a.order, k ∈ a.students.map Prod.fst) ∧
      (∀ k ∈ a.view, k ∈ a.students.map Prod.fst)) := by
  refine ⟨fun rows => (deserialize_rows_invariant rows).2, fun a h => ?_⟩
  have hW := wf_reachable h
  exact ⟨hW.emailEq, fun k hk => hW.orderPerm.mem_iff.mp hk, hW.viewKeys⟩

theorem c10_witness :
    (∀ p ∈ deserialize_rows rows0, p.2.email = p.1) ∧
    (∀ p ∈ a0.students, p.2.email = p.1) ∧
    (∀ k ∈ a0.order, k ∈ a0.students.map Prod.fst) ∧
    (∀ k ∈ a0.view, k ∈ a0.students.map Prod.fst) :=
  ⟨(c10_registry_key_email f0).1 rows0,
    ((c10_registry_key_email f0).2 a0 reach0).1,
    ((c10_registry_key_email f0).2 a0 reach0).2.1,
    ((c10_registry_key_email f0).2 a0 reach0).2.2⟩

end Roster
